import Mathlib

/-!
# Verification of the `stack_callback` callback-queue core

This file gives a shallow embedding of `src/stack_callback.js` — the
edge-triggered, reentrant FIFO callback queue (`tabbii.internals.stack_callback`)
and its barrier combinator (`push_all`) — and proves or refutes the
specification's claims about it.

The embedding mirrors the source operation by operation:

* a queue instance is a `SC` record: the live `stack` array, the `triggered`
  flag, and a `watched` flag recording whether `stack.push` has been replaced
  by `watch_stack()`'s invoke-on-push implementation (the source mutates the
  array's `push` method at runtime; the flag records which implementation is
  currently installed);
* callbacks are modelled by `Item`: a function value carries an identifier and
  the list of items it pushes onto the same queue when invoked (`Item.fn`),
  and a non-function value carries an identifier and its JavaScript truthiness
  (`Item.scalar`); functions are always truthy in JavaScript;
* invocations are recorded in a trace of `(identifier, bindContext)` pairs, and
  `console.log` diagnostics in a list of `LogEvent`s.
-/

namespace StackCallback

/-- A value sitting on the queue.  `fn id pushes` is a function object: when
invoked it calls `scope.push` with `pushes` (the only queue-visible effect a
callback can have in this development).  `scalar id truthy` is any non-function
value together with its JavaScript truthiness. -/
inductive Item where
  | fn (id : Nat) (pushes : List Item)
  | scalar (id : Nat) (truthy : Bool)

/-- JavaScript truthiness of a queued value; function objects are truthy. -/
def Item.truthy : Item → Bool
  | .fn _ _ => true
  | .scalar _ t => t

/-- `'function' == typeof fn` from the dequeue loop. -/
def Item.invocable : Item → Bool
  | .fn _ _ => true
  | .scalar _ _ => false

/-- The identifier of a value (modelling reference identity: distinct
identifiers stand for distinct object references). -/
def Item.id : Item → Nat
  | .fn i _ => i
  | .scalar i _ => i

mutual

/-- Size of the tree of items reachable through `pushes`; used as the
termination measure of the drain loop. -/
def Item.size : Item → Nat
  | .fn _ ps => 1 + Item.sizeL ps
  | .scalar _ _ => 1

/-- Total size of a list of items. -/
def Item.sizeL : List Item → Nat
  | [] => 0
  | i :: is => Item.size i + Item.sizeL is

end

/-- The loop `while(fn = stack.shift()){ if('function' == typeof fn)
(fn).apply(scope.bind); }` of `dequeue` (src/stack_callback.js:197-200).

`shift()` removes the front unconditionally; the loop continues only while the
shifted value is truthy (an empty array shifts `undefined`, which is falsy).
A truthy function is invoked — its effect being to push its `pushes` onto the
end of the live stack — and a truthy non-function is skipped.  The returned
pair is (stack left when the loop exits, trace of invocations in order).
Mid-drain pushes are appends here, matching `trigger()`-time drains, where
`stack.push` is still the plain implementation (`watch_stack()` runs only
after `dequeue()` inside `trigger`). -/
def drainLoop (bind : Nat) : List Item → List Item × List (Nat × Nat)
  | [] => ([], [])
  | .scalar _ t :: rest =>
    if t then drainLoop bind rest
    else (rest, [])
  | .fn i ps :: rest =>
    let r := drainLoop bind (rest ++ ps)
    (r.1, (i, bind) :: r.2)
termination_by l => Item.sizeL l
decreasing_by
  · simp [Item.sizeL, Item.size]
  · have h : ∀ (a b : List Item),
        Item.sizeL (a ++ b) = Item.sizeL a + Item.sizeL b := by
      intro a b
      induction a with
      | nil => simp [Item.sizeL]
      | cons i is ih => simp [Item.sizeL, ih]; omega
    simp [Item.sizeL, Item.size, h]; omega

/-- `console.log` diagnostics emitted by `dequeue`. -/
inductive LogEvent where
  /-- "Stack error. Unexecuted functions remaining on stack" (line 202). -/
  | stackError
  /-- "Refire must be enabled to use Requeue" (line 215). -/
  | requeueWarning
deriving DecidableEq

/-- One `stack_callback` instance.  `watched` records whether `stack.push` is
currently `watch_stack()`'s invoke-on-push implementation (`true`) or the
plain `Array.prototype.push` (`false`). -/
structure SC where
  stack : List Item
  triggered : Bool
  watched : Bool
  refire : Bool
  requeue : Bool
  bind : Nat

/-- `scope.stop` (lines 85-92): a no-op returning false when already waiting;
otherwise clears `triggered` and restores `stack.push` to the plain append.
(The `stop_event_listener` child is modelled separately, in `PQ`.) -/
def stop (s : SC) : SC :=
  if s.triggered then { s with triggered := false, watched := false } else s

/-- `dequeue` (lines 192-219): optional `requeue` snapshot, the drain loop,
then under `refire`: a stack-consistency log if anything is left, `stop()`,
and re-appending the snapshot; finally the requeue-without-refire warning. -/
def dequeue (s : SC) : SC × List (Nat × Nat) × List LogEvent :=
  let snapshot := if s.requeue then s.stack else []
  let r := drainLoop s.bind s.stack
  let s1 : SC := { s with stack := r.1 }
  let res :=
    if s.refire then
      let lg : List LogEvent := if r.1.isEmpty then [] else [.stackError]
      let s2 := stop s1
      let s3 := if s.requeue then { s2 with stack := s2.stack ++ snapshot } else s2
      (s3, lg)
    else (s1, ([] : List LogEvent))
  let lg2 : List LogEvent := if !s.refire && s.requeue then [.requeueWarning] else []
  (res.1, r.2, res.2 ++ lg2)

/-- `scope.trigger` (lines 66-74), minus the `trigger_event_listener` firing
(modelled in `PQ`): a no-op when already triggered; otherwise set `triggered`,
run `dequeue()`, then `watch_stack()` — which installs the invoke-on-push
`stack.push` *after* `dequeue` has possibly already run `stop()`. -/
def trigger (s : SC) : SC × List (Nat × Nat) × List LogEvent :=
  if s.triggered then (s, [], [])
  else
    let r := dequeue { s with triggered := true }
    ({ r.1 with watched := true }, r.2)

/-- `scope.push` (lines 54-57): `stack.push.apply(stack, arguments)`.  Which
implementation runs depends on whether `watch_stack()`'s replacement is
installed: the plain one appends, the replacement appends and then runs
`dequeue()`. -/
def push (s : SC) (args : List Item) : SC × List (Nat × Nat) × List LogEvent :=
  let s0 : SC := { s with stack := s.stack ++ args }
  if s.watched then dequeue s0 else (s0, [], [])

/-- `_.indexOf(stack, callback_to_remove)`: index of the first entry with the
given reference (identifier), or `-1`. -/
def indexOfAux (r : Nat) : List Item → Nat → Int
  | [], _ => -1
  | i :: rest, k => if i.id = r then (k : Int) else indexOfAux r rest (k + 1)

/-- First index of the reference `r` in the stack, `-1` when absent. -/
def indexOfId (l : List Item) (r : Nat) : Int := indexOfAux r l 0

/-- `Array.prototype.splice(start, 1)`: a negative `start` counts from the end
(clamped at 0), an overlarge one is clamped to the length; one element at the
resulting position is removed. -/
def splice1 (l : List Item) (start : Int) : List Item :=
  let len : Int := l.length
  let a : Int := if start < 0 then max (len + start) 0 else min start len
  let n : Nat := a.toNat
  l.take n ++ l.drop (n + 1)

/-- `scope.remove` (lines 102-104): `stack.splice(_.indexOf(stack, cb), 1)`. -/
def removeOp (s : SC) (r : Nat) : SC :=
  { s with stack := splice1 s.stack (indexOfId s.stack r) }

/-- `scope.empty` (lines 113-115): `stack.splice(0, stack.length)`. -/
def emptyOp (s : SC) : SC := { s with stack := [] }

/-- `scope.state` (lines 180-182). -/
def state (s : SC) : String := if s.triggered then "triggered" else "waiting"

/-- The queue state right after construction.  `items` is the prepopulated
stack after the constructor's normalization (`_.chain([...]).flatten()
.compact().flatten()`, lines 42-44) — i.e. already flattened and compacted. -/
def mkSC (bind : Nat) (refire requeue : Bool) (items : List Item) : SC :=
  { stack := items, triggered := false, watched := false
    refire := refire, requeue := requeue, bind := bind }

/-- The operations a caller can perform on one queue instance (bindContext is
a plain mutable property, so overwriting it is an operation too). -/
inductive AOp where
  | push (items : List Item)
  | trig
  | stp
  | remove (r : Nat)
  | empty
  | setBind (b : Nat)

/-- One caller operation on a queue. -/
def stepA : AOp → SC → SC × List (Nat × Nat) × List LogEvent
  | .push its, s => push s its
  | .trig, s => trigger s
  | .stp, s => (stop s, [], [])
  | .remove r, s => (removeOp s r, [], [])
  | .empty, s => (emptyOp s, [], [])
  | .setBind b, s => ({ s with bind := b }, [], [])

/-- A sequence of caller operations, with the accumulated invocation trace and
log output. -/
def runA : List AOp → SC → SC × List (Nat × Nat) × List LogEvent
  | [], s => (s, [], [])
  | op :: ops, s =>
    let r1 := stepA op s
    let r2 := runA ops r1.1
    (r2.1, r1.2.1 ++ r2.2.1, r1.2.2 ++ r2.2.2)

/-- Agreement of two queue instances on everything a caller can observe
directly: the stack contents, the state, the installed `push` implementation,
and the bind context. -/
def obsAgree (s t : SC) : Prop :=
  s.stack = t.stack ∧ s.triggered = t.triggered ∧ s.watched = t.watched ∧ s.bind = t.bind

/-- An item that pushes nothing when invoked (a plain callback or any
non-function value). -/
def Item.pushFree : Item → Bool
  | .fn _ ps => ps.isEmpty
  | .scalar _ _ => true

/-- The trace produced by invoking the invocable entries of `l`, in order,
bound to `bind`, skipping the non-invocable ones. -/
def invTrace (bind : Nat) (l : List Item) : List (Nat × Nat) :=
  l.filterMap fun i =>
    match i with
    | .fn j _ => some (j, bind)
    | .scalar _ _ => none

mutual

/-- The whole tree under an item consists of function values. -/
def Item.allFn : Item → Bool
  | .fn _ ps => Item.allFnL ps
  | .scalar _ _ => false

/-- All items in the list, transitively through `pushes`, are functions. -/
def Item.allFnL : List Item → Bool
  | [] => true
  | i :: is => Item.allFn i && Item.allFnL is

end

mutual

/-- Identifiers of an item and of everything it transitively pushes. -/
def Item.allIds : Item → List Nat
  | .fn j ps => j :: Item.allIdsL ps
  | .scalar j _ => [j]

/-- Identifiers of all items of a list, transitively through `pushes`. -/
def Item.allIdsL : List Item → List Nat
  | [] => []
  | i :: is => Item.allIds i ++ Item.allIdsL is

end

/-- A queue created with `{refire: true}` and an empty stack. -/
def refireQueue : SC := mkSC 0 true false []

/-- The state of that queue right after one `trigger()` call: `dequeue()`
drains nothing and (because of `refire`) calls `stop()`, and then `trigger`
still calls `watch_stack()`, leaving the invoke-on-push `stack.push`
installed in a queue whose `state()` is `"waiting"`. -/
def refireAfterTrigger : SC := (trigger refireQueue).1

/-- A default queue into which a falsy non-function value and then a function
were pushed (pushes do not normalize their arguments). -/
def mixedQueue : SC := (push (mkSC 0 false false []) [.scalar 1 false, .fn 2 []]).1

/-- A default queue holding two distinct callbacks (identifiers 1 and 2). -/
def twoItemQueue : SC := mkSC 0 false false [.fn 1 [], .fn 2 []]

/-! ## A queue together with its edge-listener children

`trigger_event_listener` and `stop_event_listener` (src/stack_callback.js:25,
129-163) are themselves `stack_callback` instances, created lazily with
`{bind: scope.bind, refire: true, requeue: true}` at the first registration of
the corresponding kind.  Nothing ever registers a listener *on a child*, so a
child's own `trigger_event_listener`/`stop_event_listener` fields stay
undefined forever (the constructor's `_.defer`red registration of
`options.trigger_callback`/`options.stop_callback` passes `undefined`, which
the `'function' != typeof responder` guard rejects); a child is therefore
exactly an `SC`.  Listeners are plain callbacks, `Item.fn id []`. -/

/-- Which code invoked a callback: the queue's own drain, the
`trigger_event_listener` child, or the `stop_event_listener` child. -/
inductive Src where
  | main
  | telFire
  | selFire
deriving DecidableEq

/-- A parent queue with its two optional edge-listener children.  `trans` is
instrumentation only: it counts the Waiting→Triggered transitions performed
so far (the `triggered = true` assignments in `trigger`). -/
structure PQ where
  core : SC
  tel : Option SC
  sel : Option SC
  trans : Nat

/-- The child instance built by `new scope.constructor({bind: scope.bind,
refire: true, requeue: true})`. -/
def mkChild (bind : Nat) : SC := mkSC bind true true []

/-- `scope.trigger` (lines 66-74) of a queue that may own edge listeners:
the already-triggered no-op, then `triggered = true`, `dequeue()`,
`watch_stack()`, and finally `trigger_event_listener.trigger()` when the
child exists. -/
def ptrigger (p : PQ) : PQ × List (Src × Nat × Nat) :=
  if p.core.triggered then (p, [])
  else
    let r := dequeue { p.core with triggered := true }
    let c1 : SC := { r.1 with watched := true }
    match p.tel with
    | some t =>
      let rt := trigger t
      ({ p with core := c1, tel := some rt.1, trans := p.trans + 1 },
        r.2.1.map (fun e => (Src.main, e)) ++ rt.2.1.map (fun e => (Src.telFire, e)))
    | none =>
      ({ p with core := c1, trans := p.trans + 1 }, r.2.1.map (fun e => (Src.main, e)))

/-- `scope.stop` (lines 85-92) of a queue that may own edge listeners:
the already-waiting no-op, then `triggered = false`, the restoration of the
plain `stack.push`, and `stop_event_listener.trigger()` when that child
exists. -/
def pstop (p : PQ) : PQ × List (Src × Nat × Nat) :=
  if !p.core.triggered then (p, [])
  else
    let c : SC := { p.core with triggered := false, watched := false }
    match p.sel with
    | some t =>
      let rt := trigger t
      ({ p with core := c, sel := some rt.1 }, rt.2.1.map (fun e => (Src.selFire, e)))
    | none => ({ p with core := c }, [])

/-- `scope.push` on the parent queue. -/
def ppush (p : PQ) (items : List Item) : PQ × List (Src × Nat × Nat) :=
  let r := push p.core items
  ({ p with core := r.1 }, r.2.1.map (fun e => (Src.main, e)))

/-- `scope.addTriggerEventListener` (lines 129-139): rejects non-functions
(every `responder` here is a function, identified by a number), lazily creates
the child with the parent's *current* `bind`, and pushes the responder into
it — with whatever `push` implementation the child currently has installed. -/
def addTriggerEventListener (p : PQ) (responder : Nat) : PQ × List (Src × Nat × Nat) :=
  let t := match p.tel with
    | some t => t
    | none => mkChild p.core.bind
  let r := push t [.fn responder []]
  ({ p with tel := some r.1 }, r.2.1.map (fun e => (Src.telFire, e)))

/-- `scope.addStopEventListener` (lines 153-163), same shape as
`addTriggerEventListener` with the `stop_event_listener` child. -/
def addStopEventListener (p : PQ) (responder : Nat) : PQ × List (Src × Nat × Nat) :=
  let t := match p.sel with
    | some t => t
    | none => mkChild p.core.bind
  let r := push t [.fn responder []]
  ({ p with sel := some r.1 }, r.2.1.map (fun e => (Src.selFire, e)))

/-- Caller operations on a queue with edge listeners. -/
inductive BOp where
  | push (items : List Item)
  | trig
  | stp
  | addTrigger (responder : Nat)
  | addStop (responder : Nat)
  | setBind (b : Nat)

/-- One caller operation on a queue with edge listeners. -/
def stepB : BOp → PQ → PQ × List (Src × Nat × Nat)
  | .push its, p => ppush p its
  | .trig, p => ptrigger p
  | .stp, p => pstop p
  | .addTrigger f, p => addTriggerEventListener p f
  | .addStop f, p => addStopEventListener p f
  | .setBind b, p => ({ p with core := { p.core with bind := b } }, [])

/-- A sequence of operations on a queue with edge listeners, with the
accumulated tagged invocation trace. -/
def runB : List BOp → PQ → PQ × List (Src × Nat × Nat)
  | [], p => (p, [])
  | op :: ops, p =>
    let r1 := stepB op p
    let r2 := runB ops r1.1
    (r2.1, r1.2 ++ r2.2)

/-- A freshly constructed queue (`new tabbii.internals.stack_callback`) with
no listeners registered yet. -/
def freshPQ (bind : Nat) : PQ :=
  { core := mkSC bind false false [], tel := none, sel := none, trans := 0 }

end StackCallback

namespace Barrier

/-!
## The `push_all` barrier combinator (src/stack_callback.js:244-276)

`push_all` scans its arguments into a local `stacks` array of records
`{stack_callback, triggered: false}` plus the last function argument as
`callback`; aborts (log + `return false`) when no function was found; wraps
`callback` in `_.once`; and for every record pushes a `fire_if_ready` closure
into the queue, registers the same closure as a trigger-edge listener and an
`untriggered` closure as a stop-edge listener.

The closures are modelled as `Tag`s carrying the index of their record in
`stacks`: `fire e` sets record `e`'s flag and invokes the once-wrapped final
callback when every record's flag is set; `unfire e` clears record `e`'s
flag.  These closures are truthy function objects and never push anything, so
the drain loop over a stack of tags runs it to empty, invoking each tag in
order. -/

/-- The two closures `push_all` manufactures per tracked queue, carrying the
index of the record they are bound to. -/
inductive Tag where
  | fire (e : Nat)
  | unfire (e : Nat)
deriving DecidableEq

/-- A `stack_callback` holding barrier closures (same fields as `SC`; the
stacks of the queues a barrier observes only ever hold these closures). -/
structure TagQ where
  stack : List Tag
  triggered : Bool
  watched : Bool
  refire : Bool
  requeue : Bool
deriving DecidableEq

/-- A queue constructed by `new tabbii.internals.stack_callback` (no
arguments): all options default to false. -/
def defaultQ : TagQ :=
  { stack := [], triggered := false, watched := false, refire := false, requeue := false }

/-- A lazily created edge-listener child: `{refire: true, requeue: true}`. -/
def childQ : TagQ :=
  { stack := [], triggered := false, watched := false, refire := true, requeue := true }

/-- A tracked queue with its edge-listener children. -/
structure BQ where
  core : TagQ
  tel : Option TagQ
  sel : Option TagQ
deriving DecidableEq

/-- `console` diagnostics of `push_all`. -/
inductive CLog where
  /-- "Stack Push All missing a final callback function." (line 256). -/
  | missingCallback
deriving DecidableEq

/-- Global state: the tracked queues, the `stacks` records' `triggered` flags,
the identifier of the once-wrapped final callback, the `_.once` latch, and the
list of final-callback invocations performed so far. -/
structure Sys where
  qs : List BQ
  entries : List Bool
  fcb : Nat
  once : Bool
  calls : List Nat
  logs : List CLog
deriving DecidableEq

/-- `_.once(callback)`: invoke the wrapped callback only the first time. -/
def fireOnce (s : Sys) : Sys :=
  if s.once then s else { s with once := true, calls := s.calls ++ [s.fcb] }

/-- Invoking one barrier closure: `fire_if_ready` sets its record's flag and
calls the once-wrapped final callback when `_.every(stacks, …)` holds;
`untriggered` clears its record's flag (lines 264-271). -/
def applyTag (s : Sys) (t : Tag) : Sys :=
  match t with
  | .fire e =>
    let s1 : Sys := { s with entries := s.entries.set e true }
    if s1.entries.all (fun b => b) then fireOnce s1 else s1
  | .unfire e => { s with entries := s.entries.set e false }

/-- The dequeue loop over a stack of barrier closures: all of them are truthy
functions that push nothing, so `while(fn = stack.shift())` invokes each in
order and stops exactly when the stack is empty. -/
def runTags (s : Sys) (ts : List Tag) : Sys := ts.foldl applyTag s

/-- `scope.stop` for a queue of barrier closures (children own no listeners
of their own, so no edge fires here). -/
def tstop (q : TagQ) : TagQ :=
  if q.triggered then { q with triggered := false, watched := false } else q

/-- `dequeue` for a queue of barrier closures. -/
def tdequeue (q : TagQ) (s : Sys) : TagQ × Sys :=
  let snapshot := if q.requeue then q.stack else []
  let s1 := runTags s q.stack
  let q1 : TagQ := { q with stack := [] }
  if q.refire then
    let q2 := tstop q1
    let q3 := if q.requeue then { q2 with stack := q2.stack ++ snapshot } else q2
    (q3, s1)
  else (q1, s1)

/-- `trigger` for a childless queue of barrier closures (used for the
edge-listener children). -/
def ttrigger (q : TagQ) (s : Sys) : TagQ × Sys :=
  if q.triggered then (q, s)
  else
    let r := tdequeue { q with triggered := true } s
    ({ r.1 with watched := true }, r.2)

/-- `push` for a queue of barrier closures. -/
def tpush (q : TagQ) (ts : List Tag) (s : Sys) : TagQ × Sys :=
  let q0 : TagQ := { q with stack := q.stack ++ ts }
  if q.watched then tdequeue q0 s else (q0, s)

/-- `trigger()` on tracked queue `i` (out-of-range indices cannot occur in
the source, where queues are passed by reference; they are a no-op here). -/
def btrigger (i : Nat) (s : Sys) : Sys :=
  match s.qs.get? i with
  | none => s
  | some q =>
    if q.core.triggered then s
    else
      let r := tdequeue { q.core with triggered := true } s
      let c1 : TagQ := { r.1 with watched := true }
      let rt := match q.tel with
        | some t => let x := ttrigger t r.2; (some x.1, x.2)
        | none => (none, r.2)
      { rt.2 with qs := rt.2.qs.set i { core := c1, tel := rt.1, sel := q.sel } }

/-- `stop()` on tracked queue `i`. -/
def bstop (i : Nat) (s : Sys) : Sys :=
  match s.qs.get? i with
  | none => s
  | some q =>
    if !q.core.triggered then s
    else
      let c : TagQ := { q.core with triggered := false, watched := false }
      let rs := match q.sel with
        | some t => let x := ttrigger t s; (some x.1, x.2)
        | none => (none, s)
      { rs.2 with qs := rs.2.qs.set i { core := c, tel := q.tel, sel := rs.1 } }

/-- `stack.stack_callback.push(fire_if_ready)` (line 272): a plain `push`,
which invokes immediately when the queue is already watched. -/
def bpush (i : Nat) (ts : List Tag) (s : Sys) : Sys :=
  match s.qs.get? i with
  | none => s
  | some q =>
    let r := tpush q.core ts s
    { r.2 with qs := r.2.qs.set i { q with core := r.1 } }

/-- `addTriggerEventListener(fire_if_ready)` (line 273) on tracked queue `i`. -/
def baddTrigger (i : Nat) (t : Tag) (s : Sys) : Sys :=
  match s.qs.get? i with
  | none => s
  | some q =>
    let child := match q.tel with
      | some c => c
      | none => childQ
    let r := tpush child [t] s
    { r.2 with qs := r.2.qs.set i { q with tel := some r.1 } }

/-- `addStopEventListener(untriggered)` (line 274) on tracked queue `i`. -/
def baddStop (i : Nat) (t : Tag) (s : Sys) : Sys :=
  match s.qs.get? i with
  | none => s
  | some q =>
    let child := match q.sel with
      | some c => c
      | none => childQ
    let r := tpush child [t] s
    { r.2 with qs := r.2.qs.set i { q with sel := some r.1 } }

/-- An argument of `push_all`: a `stack_callback` instance (identified by its
index among the tracked queues), a function, or anything else (which the scan
ignores: it is neither an instance nor a function). -/
inductive Arg where
  | queue (i : Nat)
  | func (f : Nat)
  | other
deriving DecidableEq

/-- `_.isFunction(argument)`. -/
def Arg.isFunc : Arg → Bool
  | .func _ => true
  | _ => false

/-- The `_.each(arguments, …)` scan (lines 246-254): queue instances are
appended to `stacks` in order, and `callback` is overwritten by every function
argument, so the last one wins. -/
def scanAux : List Arg → List Nat → Option Nat → List Nat × Option Nat
  | [], ts, cb => (ts, cb)
  | .queue i :: rest, ts, cb => scanAux rest (ts ++ [i]) cb
  | .func f :: rest, ts, _ => scanAux rest ts (some f)
  | .other :: rest, ts, cb => scanAux rest ts cb

/-- The tracked-queue list and final callback found by the argument scan. -/
def scanArgs (args : List Arg) : List Nat × Option Nat := scanAux args [] none

/-- Wiring of one `stacks` record (lines 263-275): the record index `p.1`
determines the closures, the queue index `p.2` which queue they go to. -/
def wireOne (s : Sys) (p : Nat × Nat) : Sys :=
  let s1 := bpush p.2 [Tag.fire p.1] s
  let s2 := baddTrigger p.2 (Tag.fire p.1) s1
  baddStop p.2 (Tag.unfire p.1) s2

/-- `tabbii.internals.stack_callback.push_all` (lines 244-276): scan the
arguments; when no function was found, log and return `false` leaving every
queue untouched; otherwise wrap the callback in `_.once` and wire each
record. -/
def push_all (args : List Arg) (s : Sys) : Bool × Sys :=
  let sc := scanArgs args
  match sc.2 with
  | none => (false, { s with logs := s.logs ++ [.missingCallback] })
  | some f =>
    let s1 : Sys :=
      { s with entries := List.replicate sc.1.length false, fcb := f, once := false }
    (true, sc.1.enum.foldl wireOne s1)

/-- Trigger/stop activity on the tracked queues. -/
inductive COp where
  | trig (i : Nat)
  | stp (i : Nat)
deriving DecidableEq

/-- One trigger/stop operation. -/
def stepC : COp → Sys → Sys
  | .trig i, s => btrigger i s
  | .stp i, s => bstop i s

/-- A sequence of trigger/stop operations. -/
def runC : List COp → Sys → Sys
  | [], s => s
  | op :: ops, s => runC ops (stepC op s)

/-- `n` freshly constructed queues with no barrier attached yet. -/
def freshSys (n : Nat) : Sys :=
  { qs := List.replicate n { core := defaultQ, tel := none, sel := none }
    entries := [], fcb := 0, once := false, calls := [], logs := [] }

/-- Function arguments of `push_all`, in order. -/
def funcsOf (args : List Arg) : List Nat :=
  args.filterMap fun a => match a with | .func f => some f | _ => none

/-- Queue arguments of `push_all`, in order. -/
def queuesOf (args : List Arg) : List Nat :=
  args.filterMap fun a => match a with | .queue i => some i | _ => none

/-- The last element of a list, with a default: what repeated overwriting of
`callback` computes. -/
def olast : List Nat → Option Nat → Option Nat
  | [], d => d
  | f :: rest, _ => olast rest (some f)

/-- The barrier of the spec's scenario: queues A, B, C (indices 0, 1, 2) and
final callback Z (identifier 42). -/
def barrierABC : Sys :=
  (push_all [.queue 0, .queue 1, .queue 2, .func 42] (freshSys 3)).2

/-- The scenario after `c.trigger()`. -/
def afterC : Sys := stepC (.trig 2) barrierABC

/-- The scenario after `c.trigger(); a.trigger()`. -/
def afterCA : Sys := stepC (.trig 0) afterC

/-- The scenario after `c.trigger(); a.trigger(); b.trigger()`. -/
def afterCAB : Sys := stepC (.trig 1) afterCA

end Barrier

/-! ## Theorems -/

namespace StackCallback

theorem sizeL_append (a b : List Item) :
    Item.sizeL (a ++ b) = Item.sizeL a + Item.sizeL b := by
  induction a with
  | nil => simp [Item.sizeL]
  | cons i is ih => simp [Item.sizeL, ih]; omega

theorem allFnL_append (a b : List Item) :
    Item.allFnL (a ++ b) = (Item.allFnL a && Item.allFnL b) := by
  induction a with
  | nil => simp [Item.allFnL]
  | cons i is ih => simp [Item.allFnL, ih, Bool.and_assoc]

theorem allIdsL_append (a b : List Item) :
    Item.allIdsL (a ++ b) = Item.allIdsL a ++ Item.allIdsL b := by
  induction a with
  | nil => simp [Item.allIdsL]
  | cons i is ih => simp [Item.allIdsL, ih]

/-- C1.  The claim "for every CallbackQueue in the Waiting state, push only
appends and invokes nothing, including the Waiting state reached automatically
after a refire-induced stop" fails on the code: in `trigger`,
`watch_stack()` runs *after* `dequeue()` — and with `refire` set, `dequeue`
has already called `stop()` — so the invoke-on-push `stack.push` stays
installed in the resulting Waiting state, and the next `push` drains (invokes)
its argument immediately.  Concretely: a `{refire: true}` queue is `"waiting"`
after `trigger()`, yet pushing callback 5 invokes it at once. -/
theorem C1_refire_waiting_push_invokes :
    state refireAfterTrigger = "waiting" ∧
    refireAfterTrigger.watched = true ∧
    (push refireAfterTrigger [.fn 5 []]).2.1 = [(5, 0)] := by
  refine ⟨?_, ?_, ?_⟩ <;>
    simp [state, refireAfterTrigger, refireQueue, mkSC, trigger, dequeue, drainLoop,
      stop, push]

/-- C2, counterexample.  The drain loop is `while(fn = stack.shift())`: it
terminates as soon as `shift()` returns a *falsy* value, not only when the
stack is empty.  Pushing a falsy non-function value followed by a callback and
then triggering performs no invocation at all: the falsy entry is shifted off
and ends the loop, leaving the invocable item 2 on the stack after the drain
ended — refuting both "the drain loop terminates only when the item sequence
is observed empty" and "every invocable item in it is invoked before the drain
ends". -/
theorem C2_falsy_entry_stops_drain_cex :
    (trigger mixedQueue).2.1 = [] ∧
    (trigger mixedQueue).1.stack = [Item.fn 2 []] ∧
    ([Item.fn 2 []] : List Item) ≠ [] := by
  refine ⟨?_, ?_, by simp⟩ <;>
    simp [mixedQueue, mkSC, trigger, dequeue, drainLoop, stop, push]

/-- C2, amended.  During a drain the loop repeatedly shifts the front of the
stack; a truthy shifted value is invoked if it is a function and skipped as a
no-op otherwise, and the loop ends when the shifted value is falsy — because
the stack was empty (`undefined`), or because the front entry itself was a
falsy non-function, in which case that entry is consumed and the remaining
items stay queued, uninvoked.  Hence every invocable item *before the first
falsy entry* is invoked, in order, bound to `bindContext`; items after it are
not.  (Stated for callbacks that do not re-push into the queue.) -/
theorem C2_amended_drain_stops_at_falsy (bind : Nat) :
    (∀ l, (∀ i ∈ l, i.truthy = true ∧ i.pushFree = true) →
      drainLoop bind l = ([], invTrace bind l)) ∧
    (∀ pre x post, (∀ i ∈ pre, i.truthy = true ∧ i.pushFree = true) →
      x.truthy = false →
      drainLoop bind (pre ++ x :: post) = (post, invTrace bind pre)) := by
  have main : ∀ l, (∀ i ∈ l, i.truthy = true ∧ i.pushFree = true) →
      drainLoop bind l = ([], invTrace bind l) := by
    intro l
    induction l with
    | nil => intro _; simp [drainLoop, invTrace]
    | cons i rest ih =>
      intro h
      obtain ⟨ht, hp⟩ := h i (by simp)
      have hrest : ∀ j ∈ rest, j.truthy = true ∧ j.pushFree = true :=
        fun j hj => h j (List.mem_cons_of_mem _ hj)
      cases i with
      | fn j ps =>
        have hps : ps = [] := by simpa [Item.pushFree] using hp
        subst hps
        simp [drainLoop, invTrace, ih hrest]
      | scalar j t =>
        have : t = true := by simpa [Item.truthy] using ht
        subst this
        simp [drainLoop, invTrace]
        simpa [invTrace] using ih hrest
  refine ⟨main, ?_⟩
  intro pre x post hpre hx
  induction pre with
  | nil =>
    cases x with
    | fn j ps => simp [Item.truthy] at hx
    | scalar j t =>
      have : t = false := by simpa [Item.truthy] using hx
      subst this
      simp [drainLoop, invTrace]
  | cons i rest ih =>
    obtain ⟨ht, hp⟩ := hpre i (by simp)
    have hrest : ∀ j ∈ rest, j.truthy = true ∧ j.pushFree = true :=
      fun j hj => hpre j (List.mem_cons_of_mem _ hj)
    cases i with
    | fn j ps =>
      have hps : ps = [] := by simpa [Item.pushFree] using hp
      subst hps
      simp [drainLoop, invTrace, ih hrest]
    | scalar j t =>
      have : t = true := by simpa [Item.truthy] using ht
      subst this
      simp [drainLoop, invTrace]
      simpa [invTrace] using ih hrest

/-- C2, witness: a callback, a truthy non-function, a falsy entry, then a
callback — the drain invokes only callback 7 and leaves callback 10 queued. -/
theorem C2_amended_witness :
    drainLoop 0 [Item.fn 7 [], Item.scalar 8 true, Item.scalar 9 false, Item.fn 10 []]
      = ([Item.fn 10 []], [(7, 0)]) := by
  have h := (C2_amended_drain_stops_at_falsy 0).2
    [Item.fn 7 [], Item.scalar 8 true] (Item.scalar 9 false) [Item.fn 10 []]
    (by decide) rfl
  simpa [invTrace] using h

theorem drainLoop_allFn (bind : Nat) :
    ∀ (n : Nat) (l : List Item), Item.sizeL l ≤ n → Item.allFnL l = true →
      (drainLoop bind l).1 = [] ∧
      (drainLoop bind l).2.Perm ((Item.allIdsL l).map fun i => (i, bind)) := by
  intro n
  induction n with
  | zero =>
    intro l hle _
    match l with
    | [] => simp [drainLoop, Item.allIdsL]
    | i :: rest =>
      exfalso
      have : 0 < Item.size i := by cases i <;> simp [Item.size]
      simp [Item.sizeL] at hle
      omega
  | succ n ih =>
    intro l hle hfn
    match l with
    | [] => simp [drainLoop, Item.allIdsL]
    | .scalar j t :: rest => simp [Item.allFnL, Item.allFn] at hfn
    | .fn j ps :: rest =>
      have hfn' : Item.allFnL (rest ++ ps) = true := by
        simp [Item.allFnL, Item.allFn, allFnL_append] at hfn ⊢
        exact ⟨hfn.2, hfn.1⟩
      have hle' : Item.sizeL (rest ++ ps) ≤ n := by
        simp [Item.sizeL, Item.size, sizeL_append] at hle ⊢
        omega
      obtain ⟨h1, h2⟩ := ih (rest ++ ps) hle' hfn'
      have h2' : (drainLoop bind (rest ++ ps)).2.Perm
          ((Item.allIdsL rest).map (fun i => (i, bind)) ++
            (Item.allIdsL ps).map (fun i => (i, bind))) := by
        simpa [allIdsL_append] using h2
      refine ⟨by simp [drainLoop, h1], ?_⟩
      have e : (drainLoop bind (Item.fn j ps :: rest)).2
          = (j, bind) :: (drainLoop bind (rest ++ ps)).2 := by
        simp [drainLoop]
      have e2 : Item.allIdsL (Item.fn j ps :: rest)
          = j :: (Item.allIdsL ps ++ Item.allIdsL rest) := by
        simp [Item.allIdsL, Item.allIds]
      rw [e, e2]
      simp only [List.map_cons, List.map_append]
      exact List.Perm.cons _ (h2'.trans List.perm_append_comm)

/-- C4.  For a queue created with `refire=true` and `requeue=true` over a
stack of callbacks, `trigger()` drains the queue and then: the queue is back
in Waiting, its stack is exactly the sequence present at the start of the
drain (re-appended by the requeue step, without being invoked again), and the
invocation trace is a permutation of the identifiers of the initial items
*plus everything they pushed during the drain* — items pushed mid-drain are
invoked during the drain and do not appear in the requeued stack. -/
theorem C4_requeue_restores_snapshot (bind : Nat) (items : List Item)
    (h : Item.allFnL items = true) :
    (trigger (mkSC bind true true items)).1.stack = items ∧
    (trigger (mkSC bind true true items)).1.triggered = false ∧
    (trigger (mkSC bind true true items)).2.1.Perm
      ((Item.allIdsL items).map fun i => (i, bind)) := by
  obtain ⟨h1, h2⟩ := drainLoop_allFn bind (Item.sizeL items) items (Nat.le_refl _) h
  refine ⟨?_, ?_, ?_⟩ <;>
    simp [trigger, dequeue, mkSC, stop, h1, h2]

theorem indexOfAux_not_found (r : Nat) :
    ∀ (l : List Item) (k : Nat), (∀ y ∈ l, y.id ≠ r) → indexOfAux r l k = -1 := by
  intro l
  induction l with
  | nil => intro k _; rfl
  | cons i rest ih =>
    intro k h
    have hi : i.id ≠ r := h i (by simp)
    simp only [indexOfAux, if_neg hi]
    exact ih (k + 1) (fun y hy => h y (List.mem_cons_of_mem _ hy))

theorem indexOfAux_found (r : Nat) (x : Item) (hx : x.id = r) (post : List Item) :
    ∀ (pre : List Item) (k : Nat), (∀ y ∈ pre, y.id ≠ r) →
      indexOfAux r (pre ++ x :: post) k = (k : Int) + pre.length := by
  intro pre
  induction pre with
  | nil => intro k _; simp [indexOfAux, hx]
  | cons i rest ih =>
    intro k h
    have hi : i.id ≠ r := h i (by simp)
    simp only [List.cons_append, indexOfAux, if_neg hi, List.append_eq]
    rw [ih (k + 1) (fun y hy => h y (List.mem_cons_of_mem _ hy))]
    simp only [List.length_cons]
    push_cast
    omega

theorem splice1_natCast (l : List Item) (n : Nat) (hn : n ≤ l.length) :
    splice1 l (n : Int) = l.take n ++ l.drop (n + 1) := by
  simp only [splice1]
  rw [if_neg (by omega : ¬((n : Int) < 0))]
  have h2 : min (n : Int) (l.length : Int) = (n : Int) := by omega
  rw [h2]
  have h3 : ((n : Int)).toNat = n := by omega
  rw [h3]

theorem splice1_found (pre : List Item) (x : Item) (post : List Item) :
    splice1 (pre ++ x :: post) (pre.length : Int) = pre ++ post := by
  rw [splice1_natCast _ _ (by simp)]
  have h1 : (pre ++ x :: post).take pre.length = pre := List.take_left _ _
  have h2 : (pre ++ x :: post).drop (pre.length + 1) = post := by
    have e : pre ++ x :: post = (pre ++ [x]) ++ post := by simp
    have hl : pre.length + 1 = (pre ++ [x]).length := by simp
    rw [e, hl]
    exact List.drop_left _ _
  rw [h1, h2]

theorem splice1_neg1 (l : List Item) : splice1 l (-1) = l.dropLast := by
  simp only [splice1]
  rw [if_pos (by omega : (-1 : Int) < 0)]
  cases l with
  | nil => simp
  | cons a as =>
    have hm : (max (((a :: as).length : Int) + -1) 0).toNat = as.length := by
      simp only [List.length_cons]
      omega
    rw [hm]
    simp [List.dropLast_eq_take]

/-- C6, counterexample.  `remove` is `stack.splice(_.indexOf(stack, cb), 1)`;
when the reference is absent, `_.indexOf` returns `-1` and `splice(-1, 1)`
removes the *last* element rather than leaving the stack unchanged.  On a
queue holding callbacks 1 and 2, removing the absent reference 3 changes the
stack (it deletes callback 2), refuting "when no such entry is present it is
a no-op". -/
theorem C6_remove_absent_cex :
    (removeOp twoItemQueue 3).stack.length = 1 ∧
    twoItemQueue.stack.length = 2 ∧
    (removeOp twoItemQueue 3).stack ≠ twoItemQueue.stack := by
  refine ⟨by decide, by decide, fun h => absurd (congrArg List.length h) (by decide)⟩

/-- C6, amended.  `remove(itemRef)` removes exactly the first entry of the
stack that is reference-identical to `itemRef`; when no such entry is present
it removes the *last* entry of the stack instead (`splice(-1, 1)`), so it is a
no-op only when the stack is already empty. -/
theorem C6_amended_remove (s : SC) (r : Nat) :
    (∀ pre x post, s.stack = pre ++ x :: post → (∀ y ∈ pre, y.id ≠ r) → x.id = r →
      (removeOp s r).stack = pre ++ post) ∧
    ((∀ y ∈ s.stack, y.id ≠ r) → (removeOp s r).stack = s.stack.dropLast) := by
  constructor
  · intro pre x post hs hpre hx
    simp only [removeOp, indexOfId]
    rw [hs, indexOfAux_found r x hx post pre 0 hpre]
    have e : ((0 : Nat) : Int) + (pre.length : Int) = (pre.length : Int) := by omega
    rw [e, splice1_found]
  · intro h
    simp only [removeOp, indexOfId]
    rw [indexOfAux_not_found r s.stack 0 h, splice1_neg1]

/-- C6, witness: removing the present reference 2 deletes exactly its entry;
removing the absent reference 3 deletes the last entry. -/
theorem C6_amended_witness :
    (removeOp twoItemQueue 2).stack = [Item.fn 1 []] ∧
    (removeOp twoItemQueue 3).stack = twoItemQueue.stack.dropLast :=
  ⟨(C6_amended_remove twoItemQueue 2).1 [Item.fn 1 []] (Item.fn 2 []) [] rfl
      (by decide) rfl,
    (C6_amended_remove twoItemQueue 3).2 (by decide)⟩

/-- C4, witness: two callbacks, the first of which pushes a third one
mid-drain; after `trigger()` the stack holds exactly the two initial
callbacks again and all three were invoked. -/
theorem C4_requeue_witness :
    (trigger (mkSC 0 true true [Item.fn 1 [Item.fn 2 []], Item.fn 3 []])).1.stack
        = [Item.fn 1 [Item.fn 2 []], Item.fn 3 []] ∧
    (trigger (mkSC 0 true true [Item.fn 1 [Item.fn 2 []], Item.fn 3 []])).1.triggered
        = false ∧
    (trigger (mkSC 0 true true [Item.fn 1 [Item.fn 2 []], Item.fn 3 []])).2.1.Perm
      ((Item.allIdsL [Item.fn 1 [Item.fn 2 []], Item.fn 3 []]).map fun i => (i, 0)) :=
  C4_requeue_restores_snapshot 0 [Item.fn 1 [Item.fn 2 []], Item.fn 3 []] (by decide)

theorem dequeue_norefire (s : SC) (h : s.refire = false) :
    dequeue s = ({ s with stack := (drainLoop s.bind s.stack).1 },
      (drainLoop s.bind s.stack).2,
      if s.requeue then [LogEvent.requeueWarning] else []) := by
  simp [dequeue, h]

theorem dequeue_requeue_drop (s : SC) (hr : s.refire = false) :
    dequeue { s with requeue := false }
      = ({ (dequeue s).1 with requeue := false }, (dequeue s).2.1, []) := by
  rw [dequeue_norefire s hr,
    dequeue_norefire { s with requeue := false } (by simpa using hr)]
  simp

theorem stepA_requeue_drop (op : AOp) (s : SC) (hr : s.refire = false) :
    stepA op { s with requeue := false }
        = ({ (stepA op s).1 with requeue := false }, (stepA op s).2.1, []) ∧
    (∀ l ∈ (stepA op s).2.2, l = LogEvent.requeueWarning) ∧
    (stepA op s).1.refire = false := by
  obtain ⟨st, tg, wt, rf, rq, bd⟩ := s
  have hrf : rf = false := hr
  subst hrf
  cases op with
  | push its =>
    cases wt with
    | false => simp [stepA, push]
    | true =>
      have e1 : stepA (.push its) ⟨st, tg, true, false, false, bd⟩
          = dequeue ⟨st ++ its, tg, true, false, false, bd⟩ := rfl
      have e2 : stepA (.push its) ⟨st, tg, true, false, rq, bd⟩
          = dequeue ⟨st ++ its, tg, true, false, rq, bd⟩ := rfl
      rw [e1, e2, dequeue_norefire ⟨st ++ its, tg, true, false, false, bd⟩ rfl,
        dequeue_norefire ⟨st ++ its, tg, true, false, rq, bd⟩ rfl]
      refine ⟨rfl, ?_, rfl⟩
      split <;> simp
  | trig =>
    cases tg with
    | true => simp [stepA, trigger]
    | false =>
      have e1 : stepA .trig ⟨st, false, wt, false, false, bd⟩
          = ({ (dequeue ⟨st, true, wt, false, false, bd⟩).1 with watched := true },
             (dequeue ⟨st, true, wt, false, false, bd⟩).2) := rfl
      have e2 : stepA .trig ⟨st, false, wt, false, rq, bd⟩
          = ({ (dequeue ⟨st, true, wt, false, rq, bd⟩).1 with watched := true },
             (dequeue ⟨st, true, wt, false, rq, bd⟩).2) := rfl
      rw [e1, e2, dequeue_norefire ⟨st, true, wt, false, false, bd⟩ rfl,
        dequeue_norefire ⟨st, true, wt, false, rq, bd⟩ rfl]
      refine ⟨rfl, ?_, rfl⟩
      split <;> simp
  | stp => cases tg <;> simp [stepA, stop]
  | remove r => simp [stepA, removeOp]
  | empty => simp [stepA, emptyOp]
  | setBind b => simp [stepA]

theorem runA_requeue_drop (ops : List AOp) :
    ∀ (s : SC), s.refire = false →
      (runA ops { s with requeue := false }).1
          = { (runA ops s).1 with requeue := false } ∧
      (runA ops { s with requeue := false }).2.1 = (runA ops s).2.1 ∧
      (runA ops { s with requeue := false }).2.2 = [] ∧
      (∀ l ∈ (runA ops s).2.2, l = LogEvent.requeueWarning) := by
  induction ops with
  | nil => intro s _; simp [runA]
  | cons op rest ih =>
    intro s hr
    obtain ⟨he, hl, hrf⟩ := stepA_requeue_drop op s hr
    obtain ⟨ih1, ih2, ih3, ih4⟩ := ih (stepA op s).1 hrf
    refine ⟨?_, ?_, ?_, ?_⟩
    · simp only [runA, he, ih1]
    · simp only [runA, he, ih1, ih2]
    · simp only [runA, he, ih1, ih3, List.append_nil]
    · simp only [runA]
      intro l hlmem
      rcases List.mem_append.1 hlmem with hm | hm
      · exact hl l hm
      · exact ih4 l hm

/-- C8.  A queue created with `requeue=true` and `refire=false` behaves
exactly like the same queue created with `requeue=false`: after every
operation sequence the two agree on the entire queue state apart from the
recorded `requeue` option itself (stack, state, installed push
implementation, bind context), the invocation traces are identical (items are
never requeued), and the only observable difference is the "Refire must be
enabled to use Requeue" configuration warning, which the `requeue=false`
queue never emits. -/
theorem C8_requeue_without_refire_equiv (ops : List AOp) (bind : Nat)
    (items : List Item) :
    (runA ops (mkSC bind false false items)).1
        = { (runA ops (mkSC bind false true items)).1 with requeue := false } ∧
    (runA ops (mkSC bind false false items)).2.1
        = (runA ops (mkSC bind false true items)).2.1 ∧
    (runA ops (mkSC bind false false items)).2.2 = [] ∧
    (∀ l ∈ (runA ops (mkSC bind false true items)).2.2,
      l = LogEvent.requeueWarning) :=
  runA_requeue_drop ops (mkSC bind false true items) rfl

/-- C3.  The claim "a listener fires exactly once per Waiting→Triggered
transition and never as a side effect of any other operation (in particular,
registering a further listener between two transitions does not invoke fn)"
fails on the code: after the first transition, the refire+requeue child queue
holding the listeners is left Waiting but with the invoke-on-push
`stack.push` still installed (`watch_stack()` runs after the child's
`dequeue` already called `stop()`), so the next `addTriggerEventListener`
push *drains the child*, invoking every registered listener.  Concretely:
register listener 1, trigger (listener 1 fires once — the only
Waiting→Triggered transition), then register listener 2: listeners 1 and 2
are both invoked by the registration itself, so listener 1 has fired twice
over a single transition. -/
theorem C3_registration_invokes_without_transition :
    (runB [.addTrigger 1, .trig, .addTrigger 2] (freshPQ 0)).2
        = [(Src.telFire, 1, 0), (Src.telFire, 1, 0), (Src.telFire, 2, 0)] ∧
    (runB [.addTrigger 1, .trig, .addTrigger 2] (freshPQ 0)).1.trans = 1 := by
  constructor <;>
    simp [runB, stepB, freshPQ, mkSC, mkChild, addTriggerEventListener, ptrigger,
      push, trigger, dequeue, drainLoop, stop]

/-- C9.  Both edge-listener child queues — the `trigger_event_listener`
created by `addTriggerEventListener` (lines 129-139) and the
`stop_event_listener` created by `addStopEventListener` (lines 153-163) —
copy the parent's `bindContext` at the moment the first listener of their
kind is registered; reassigning the parent's `bindContext` afterwards changes
the invocation context of ordinarily queued items but not of either kind of
edge listener, whether registered before or after the reassignment.
Concretely: on a queue created with bind `b0`, register trigger-edge listener
`i` and stop-edge listener `k`, reassign bind to `b1`, push ordinary callback
`g`, trigger, register a further trigger-edge listener `j`, stop, then
register a further stop-edge listener `m`: `g` is invoked with the live `b1`
while `i`, `j` (on the trigger edge / later registration) and `k`, `m` (on
the stop edge / later registration) are all invoked with the snapshot `b0`. -/
theorem C9_edge_listener_bind_snapshot (b0 b1 i j k m g : Nat) :
    (runB [.addTrigger i, .addStop k, .setBind b1, .push [.fn g []], .trig,
        .addTrigger j, .stp, .addStop m] (freshPQ b0)).2
      = [(Src.main, g, b1), (Src.telFire, i, b0),
         (Src.telFire, i, b0), (Src.telFire, j, b0),
         (Src.selFire, k, b0),
         (Src.selFire, k, b0), (Src.selFire, m, b0)] := by
  simp [runB, stepB, freshPQ, mkSC, mkChild, addTriggerEventListener,
    addStopEventListener, ptrigger, pstop, ppush, push, trigger, dequeue,
    drainLoop, stop]

end StackCallback

namespace Barrier

theorem fireOnce_frozen (s : Sys) (h : s.once = true) : fireOnce s = s := by
  simp [fireOnce, h]

theorem applyTag_frozen (s : Sys) (t : Tag) (h : s.once = true) :
    (applyTag s t).once = true ∧ (applyTag s t).calls = s.calls := by
  cases t with
  | fire e =>
    simp only [applyTag]
    split
    · rw [fireOnce_frozen { s with entries := s.entries.set e true } h]
      exact ⟨h, rfl⟩
    · exact ⟨h, rfl⟩
  | unfire e => exact ⟨h, rfl⟩

theorem runTags_frozen (ts : List Tag) : ∀ (s : Sys), s.once = true →
    (runTags s ts).once = true ∧ (runTags s ts).calls = s.calls := by
  induction ts with
  | nil => intro s h; exact ⟨h, rfl⟩
  | cons t rest ih =>
    intro s h
    obtain ⟨h1, h2⟩ := applyTag_frozen s t h
    obtain ⟨h3, h4⟩ := ih (applyTag s t) h1
    simp only [runTags, List.foldl_cons] at *
    exact ⟨h3, h4.trans h2⟩

theorem tdequeue_sys (q : TagQ) (s : Sys) : (tdequeue q s).2 = runTags s q.stack := by
  simp only [tdequeue]
  split <;> rfl

theorem ttrigger_frozen (q : TagQ) (s : Sys) (h : s.once = true) :
    (ttrigger q s).2.once = true ∧ (ttrigger q s).2.calls = s.calls := by
  simp only [ttrigger]
  split
  · exact ⟨h, rfl⟩
  · rw [tdequeue_sys]
    exact runTags_frozen _ s h

theorem btrigger_frozen (i : Nat) (s : Sys) (h : s.once = true) :
    (btrigger i s).once = true ∧ (btrigger i s).calls = s.calls := by
  simp only [btrigger]
  split
  · exact ⟨h, rfl⟩
  · next q _ =>
    split
    · exact ⟨h, rfl⟩
    · cases htel : q.tel with
      | none =>
        simp only [htel]
        rw [tdequeue_sys]
        exact runTags_frozen _ s h
      | some t =>
        simp only [htel]
        obtain ⟨h1, h2⟩ := runTags_frozen { q.core with triggered := true }.stack s h
        rw [tdequeue_sys]
        obtain ⟨h3, h4⟩ := ttrigger_frozen t _ h1
        exact ⟨h3, h4.trans h2⟩

theorem bstop_frozen (i : Nat) (s : Sys) (h : s.once = true) :
    (bstop i s).once = true ∧ (bstop i s).calls = s.calls := by
  simp only [bstop]
  split
  · exact ⟨h, rfl⟩
  · next q _ =>
    split
    · exact ⟨h, rfl⟩
    · cases hsel : q.sel with
      | none => exact ⟨h, rfl⟩
      | some t =>
        simp only [hsel]
        exact ttrigger_frozen t s h

theorem stepC_frozen (op : COp) (s : Sys) (h : s.once = true) :
    (stepC op s).once = true ∧ (stepC op s).calls = s.calls := by
  cases op with
  | trig i => exact btrigger_frozen i s h
  | stp i => exact bstop_frozen i s h

theorem runC_frozen (ops : List COp) : ∀ (s : Sys), s.once = true →
    (runC ops s).once = true ∧ (runC ops s).calls = s.calls := by
  induction ops with
  | nil => intro s h; exact ⟨h, rfl⟩
  | cons op rest ih =>
    intro s h
    obtain ⟨h1, h2⟩ := stepC_frozen op s h
    obtain ⟨h3, h4⟩ := ih (stepC op s) h1
    exact ⟨h3, h4.trans h2⟩

/-- C5.  For the barrier built by `push_all` over three fresh Waiting queues
A, B, C (indices 0, 1, 2) and final callback Z (identifier 42): triggering C
alone does not invoke Z, subsequently triggering A does not invoke Z,
subsequently triggering B invokes Z exactly once, and no sequence of further
`trigger()`/`stop()` activity on any of the queues ever invokes Z again. -/
theorem C5_barrier_scenario :
    afterC.calls = [] ∧ afterCA.calls = [] ∧ afterCAB.calls = [42] ∧
    ∀ ops : List COp, (runC ops afterCAB).calls = [42] := by
  refine ⟨by decide, by decide, by decide, fun ops => ?_⟩
  exact ((runC_frozen ops afterCAB (by decide)).2).trans (by decide)

theorem funcsOf_nil_of_nofunc (args : List Arg) (h : ∀ a ∈ args, a.isFunc = false) :
    funcsOf args = [] := by
  induction args with
  | nil => rfl
  | cons a rest ih =>
    have hrest := ih (fun x hx => h x (List.mem_cons_of_mem _ hx))
    cases a with
    | queue i => simpa [funcsOf, List.filterMap_cons] using hrest
    | func f => exact absurd (h (.func f) (by simp)) (by simp [Arg.isFunc])
    | other => simpa [funcsOf, List.filterMap_cons] using hrest

theorem scanAux_spec : ∀ (args : List Arg) (ts : List Nat) (cb : Option Nat),
    scanAux args ts cb = (ts ++ queuesOf args, olast (funcsOf args) cb) := by
  intro args
  induction args with
  | nil => intro ts cb; simp [scanAux, queuesOf, funcsOf, olast]
  | cons a rest ih =>
    intro ts cb
    cases a with
    | queue i => simp [scanAux, queuesOf, funcsOf, List.filterMap_cons, olast, ih]
    | func f => simp [scanAux, queuesOf, funcsOf, List.filterMap_cons, olast, ih]
    | other => simp [scanAux, queuesOf, funcsOf, List.filterMap_cons, olast, ih]

theorem olast_concat (fs : List Nat) (f : Nat) : ∀ d, olast (fs ++ [f]) d = some f := by
  induction fs with
  | nil => intro d; rfl
  | cons a rest ih =>
    intro d
    simp only [List.cons_append, olast]
    exact ih _

/-- C7.  When `push_all` finds no invocable among its arguments, construction
aborts: the configuration error is logged, `false` is returned, and no
tracked queue is touched — no response is pushed and no edge listener is
attached, the whole queue array (and the record flags) being left exactly as
it was. -/
theorem C7_push_all_no_callback (args : List Arg) (s : Sys)
    (h : ∀ a ∈ args, a.isFunc = false) :
    push_all args s = (false, { s with logs := s.logs ++ [CLog.missingCallback] }) ∧
    (push_all args s).2.qs = s.qs ∧
    (push_all args s).2.entries = s.entries := by
  have hsc : scanArgs args = ([] ++ queuesOf args, none) := by
    rw [scanArgs, scanAux_spec, funcsOf_nil_of_nofunc args h]
    rfl
  have h1 : push_all args s
      = (false, { s with logs := s.logs ++ [CLog.missingCallback] }) := by
    simp only [push_all, hsc]
  exact ⟨h1, by rw [h1], by rw [h1]⟩

/-- C7, witness: `push_all(queue, non-invocable)` over one fresh queue. -/
theorem C7_push_all_no_callback_witness :
    push_all [Arg.queue 0, Arg.other] (freshSys 1)
        = (false, { freshSys 1 with
            logs := (freshSys 1).logs ++ [CLog.missingCallback] }) ∧
    (push_all [Arg.queue 0, Arg.other] (freshSys 1)).2.qs = (freshSys 1).qs ∧
    (push_all [Arg.queue 0, Arg.other] (freshSys 1)).2.entries
        = (freshSys 1).entries :=
  C7_push_all_no_callback [Arg.queue 0, Arg.other] (freshSys 1) (by decide)

theorem fireOnce_inv (s : Sys) :
    (fireOnce s).fcb = s.fcb ∧
    ((∀ c ∈ s.calls, c = s.fcb) → ∀ c ∈ (fireOnce s).calls, c = s.fcb) := by
  simp only [fireOnce]
  split
  · exact ⟨rfl, fun h => h⟩
  · refine ⟨rfl, fun h c hc => ?_⟩
    rcases List.mem_append.1 hc with hm | hm
    · exact h c hm
    · simpa using hm

theorem applyTag_inv (s : Sys) (t : Tag) :
    (applyTag s t).fcb = s.fcb ∧
    ((∀ c ∈ s.calls, c = s.fcb) → ∀ c ∈ (applyTag s t).calls, c = s.fcb) := by
  cases t with
  | fire e =>
    simp only [applyTag]
    split
    · exact fireOnce_inv { s with entries := s.entries.set e true }
    · exact ⟨rfl, fun h => h⟩
  | unfire e => exact ⟨rfl, fun h => h⟩

theorem runTags_inv (ts : List Tag) : ∀ (s : Sys),
    (runTags s ts).fcb = s.fcb ∧
    ((∀ c ∈ s.calls, c = s.fcb) → ∀ c ∈ (runTags s ts).calls, c = s.fcb) := by
  induction ts with
  | nil => intro s; exact ⟨rfl, fun h => h⟩
  | cons t rest ih =>
    intro s
    obtain ⟨h1, h2⟩ := applyTag_inv s t
    obtain ⟨h3, h4⟩ := ih (applyTag s t)
    simp only [runTags, List.foldl_cons] at *
    exact ⟨h3.trans h1, fun h => by
      have := h4 (by rw [h1]; exact h2 h)
      rwa [h1] at this⟩

theorem ttrigger_inv (q : TagQ) (s : Sys) :
    (ttrigger q s).2.fcb = s.fcb ∧
    ((∀ c ∈ s.calls, c = s.fcb) → ∀ c ∈ (ttrigger q s).2.calls, c = s.fcb) := by
  simp only [ttrigger]
  split
  · exact ⟨rfl, fun h => h⟩
  · rw [tdequeue_sys]
    exact runTags_inv _ s

theorem tpush_inv (q : TagQ) (ts : List Tag) (s : Sys) :
    (tpush q ts s).2.fcb = s.fcb ∧
    ((∀ c ∈ s.calls, c = s.fcb) → ∀ c ∈ (tpush q ts s).2.calls, c = s.fcb) := by
  simp only [tpush]
  split
  · rw [tdequeue_sys]
    exact runTags_inv _ s
  · exact ⟨rfl, fun h => h⟩

theorem btrigger_inv (i : Nat) (s : Sys) :
    (btrigger i s).fcb = s.fcb ∧
    ((∀ c ∈ s.calls, c = s.fcb) → ∀ c ∈ (btrigger i s).calls, c = s.fcb) := by
  simp only [btrigger]
  split
  · exact ⟨rfl, fun h => h⟩
  · next q _ =>
    split
    · exact ⟨rfl, fun h => h⟩
    · cases htel : q.tel with
      | none =>
        simp only [htel]
        rw [tdequeue_sys]
        exact runTags_inv _ s
      | some t =>
        simp only [htel]
        rw [tdequeue_sys]
        obtain ⟨h1, h2⟩ := runTags_inv { q.core with triggered := true }.stack s
        obtain ⟨h3, h4⟩ := ttrigger_inv t (runTags s { q.core with triggered := true }.stack)
        refine ⟨h3.trans h1, fun h => ?_⟩
        have := h4 (by rw [h1]; exact h2 h)
        rwa [h1] at this

theorem bstop_inv (i : Nat) (s : Sys) :
    (bstop i s).fcb = s.fcb ∧
    ((∀ c ∈ s.calls, c = s.fcb) → ∀ c ∈ (bstop i s).calls, c = s.fcb) := by
  simp only [bstop]
  split
  · exact ⟨rfl, fun h => h⟩
  · next q _ =>
    split
    · exact ⟨rfl, fun h => h⟩
    · cases hsel : q.sel with
      | none => exact ⟨rfl, fun h => h⟩
      | some t =>
        simp only [hsel]
        exact ttrigger_inv t s

theorem bpush_inv (i : Nat) (ts : List Tag) (s : Sys) :
    (bpush i ts s).fcb = s.fcb ∧
    ((∀ c ∈ s.calls, c = s.fcb) → ∀ c ∈ (bpush i ts s).calls, c = s.fcb) := by
  simp only [bpush]
  split
  · exact ⟨rfl, fun h => h⟩
  · exact tpush_inv _ ts s

theorem baddTrigger_inv (i : Nat) (t : Tag) (s : Sys) :
    (baddTrigger i t s).fcb = s.fcb ∧
    ((∀ c ∈ s.calls, c = s.fcb) → ∀ c ∈ (baddTrigger i t s).calls, c = s.fcb) := by
  simp only [baddTrigger]
  split
  · exact ⟨rfl, fun h => h⟩
  · exact tpush_inv _ [t] s

theorem baddStop_inv (i : Nat) (t : Tag) (s : Sys) :
    (baddStop i t s).fcb = s.fcb ∧
    ((∀ c ∈ s.calls, c = s.fcb) → ∀ c ∈ (baddStop i t s).calls, c = s.fcb) := by
  simp only [baddStop]
  split
  · exact ⟨rfl, fun h => h⟩
  · exact tpush_inv _ [t] s

theorem wireOne_inv (s : Sys) (p : Nat × Nat) :
    (wireOne s p).fcb = s.fcb ∧
    ((∀ c ∈ s.calls, c = s.fcb) → ∀ c ∈ (wireOne s p).calls, c = s.fcb) := by
  simp only [wireOne]
  obtain ⟨h1, h2⟩ := bpush_inv p.2 [Tag.fire p.1] s
  obtain ⟨h3, h4⟩ := baddTrigger_inv p.2 (Tag.fire p.1) (bpush p.2 [Tag.fire p.1] s)
  obtain ⟨h5, h6⟩ := baddStop_inv p.2 (Tag.unfire p.1)
    (baddTrigger p.2 (Tag.fire p.1) (bpush p.2 [Tag.fire p.1] s))
  refine ⟨(h5.trans h3).trans h1, fun h => ?_⟩
  have i2 := h2 h
  have i4 := h4 (by rw [h1]; exact i2)
  have i6 := h6 (by rw [h3]; exact i4)
  rwa [h3, h1] at i6

theorem wireFold_inv (ps : List (Nat × Nat)) : ∀ (s : Sys),
    (ps.foldl wireOne s).fcb = s.fcb ∧
    ((∀ c ∈ s.calls, c = s.fcb) → ∀ c ∈ (ps.foldl wireOne s).calls, c = s.fcb) := by
  induction ps with
  | nil => intro s; exact ⟨rfl, fun h => h⟩
  | cons p rest ih =>
    intro s
    obtain ⟨h1, h2⟩ := wireOne_inv s p
    obtain ⟨h3, h4⟩ := ih (wireOne s p)
    simp only [List.foldl_cons]
    refine ⟨h3.trans h1, fun h => ?_⟩
    have := h4 (by rw [h1]; exact h2 h)
    rwa [h1] at this

theorem stepC_inv (op : COp) (s : Sys) :
    (stepC op s).fcb = s.fcb ∧
    ((∀ c ∈ s.calls, c = s.fcb) → ∀ c ∈ (stepC op s).calls, c = s.fcb) := by
  cases op with
  | trig i => exact btrigger_inv i s
  | stp i => exact bstop_inv i s

theorem runC_inv (ops : List COp) : ∀ (s : Sys),
    (runC ops s).fcb = s.fcb ∧
    ((∀ c ∈ s.calls, c = s.fcb) → ∀ c ∈ (runC ops s).calls, c = s.fcb) := by
  induction ops with
  | nil => intro s; exact ⟨rfl, fun h => h⟩
  | cons op rest ih =>
    intro s
    obtain ⟨h1, h2⟩ := stepC_inv op s
    obtain ⟨h3, h4⟩ := ih (stepC op s)
    refine ⟨h3.trans h1, fun h => ?_⟩
    have := h4 (by rw [h1]; exact h2 h)
    rwa [h1] at this

/-- C10.  When `push_all` receives several invocable arguments, the scan's
`callback` variable is overwritten by each one in turn, so the *last*
invocable argument becomes the once-wrapped final callback; every earlier
invocable argument is silently discarded — it is not among the tracked
queues (those are exactly the queue arguments, in order) and no run of
trigger/stop activity on the constructed barrier ever invokes anything but
the final callback. -/
theorem C10_last_invocable_wins (args : List Arg) (fs : List Nat) (f : Nat)
    (n : Nat) (h : funcsOf args = fs ++ [f]) :
    (scanArgs args).2 = some f ∧
    (scanArgs args).1 = queuesOf args ∧
    (push_all args (freshSys n)).2.fcb = f ∧
    (∀ ops : List COp, ∀ c ∈ (runC ops (push_all args (freshSys n)).2).calls,
      c = f) := by
  have hsc : scanArgs args = (queuesOf args, some f) := by
    rw [scanArgs, scanAux_spec, h, olast_concat]
    simp
  refine ⟨by rw [hsc], by rw [hsc], ?_, ?_⟩
  all_goals simp only [push_all, hsc]
  · exact (wireFold_inv _ _).1
  · intro ops c hc
    obtain ⟨h1, h2⟩ := wireFold_inv (queuesOf args).enum
      { freshSys n with
        entries := List.replicate (queuesOf args).length false, fcb := f,
        once := false }
    obtain ⟨h3, h4⟩ := runC_inv ops ((queuesOf args).enum.foldl wireOne
      { freshSys n with
        entries := List.replicate (queuesOf args).length false, fcb := f,
        once := false })
    have i2 := h2 (by intro x hx; simp [freshSys] at hx)
    have i4 := h4 (by rw [h1]; exact i2)
    rw [h1] at i4
    exact i4 c hc

/-- C10, witness: `push_all(f7, queue, f9)` — the later invocable 9 becomes
the final callback, the tracked queues are exactly the queue arguments, and
triggering the single tracked queue invokes only callback 9. -/
theorem C10_last_invocable_wins_witness :
    (scanArgs [Arg.func 7, Arg.queue 0, Arg.func 9]).2 = some 9 ∧
    (scanArgs [Arg.func 7, Arg.queue 0, Arg.func 9]).1
        = queuesOf [Arg.func 7, Arg.queue 0, Arg.func 9] ∧
    (push_all [Arg.func 7, Arg.queue 0, Arg.func 9] (freshSys 1)).2.fcb = 9 ∧
    (∀ ops : List COp,
      ∀ c ∈ (runC ops
        (push_all [Arg.func 7, Arg.queue 0, Arg.func 9] (freshSys 1)).2).calls,
      c = 9) :=
  C10_last_invocable_wins [Arg.func 7, Arg.queue 0, Arg.func 9] [7] 9 1 (by decide)

end Barrier
